import Mathlib

/-!
# Komnottra backend — shallow embedding and verification

This file embeds the data model and route handlers of the Komnottra
content-management backend (an Express server persisting articles and
categories as JSON files) and proves the behavioural claims about it:
slug uniqueness, slug-counter minimality, category normalization,
article deletion and filtering, newest-first ordering, category
distinctness, and the backup/restore round trip.

Conventions of the embedding:
* JavaScript arrays become `List`, objects become structures.
* `Date.now()` timestamps and parsed numeric ids become `Int`.
* A JSON body field that may be absent or hold a non-string value is
  modelled by `StrField`.
* File contents (for the ZIP backup/restore layer) are opaque `String`s.
* HTTP handlers become pure functions from state and request data to a
  status code and the successor state.
-/

namespace Komnottra

/-! ## Decimal rendering of naturals

The slug loop renders the counter with JavaScript string interpolation,
i.e. decimal notation.  We embed that via `Nat.digits 10`. -/

/-- The decimal digit character for `d < 10` (as produced when a number
is interpolated into a template string). -/
def digitChar (d : Nat) : Char :=
  match d with
  | 0 => '0' | 1 => '1' | 2 => '2' | 3 => '3' | 4 => '4'
  | 5 => '5' | 6 => '6' | 7 => '7' | 8 => '8' | 9 => '9'
  | _ => '*'

/-- The little-endian decimal digits of `n`, computed with explicit
fuel (any fuel at least `n` is enough). -/
def natDigitsAux : Nat → Nat → List Nat
  | 0, _ => []
  | Nat.succ fuel, n => if n = 0 then [] else (n % 10) :: natDigitsAux fuel (n / 10)

/-- The little-endian decimal digits of `n`. -/
def natDigits (n : Nat) : List Nat := natDigitsAux n n

/-- Evaluation of little-endian decimal digits back to a number. -/
def ofDigits : List Nat → Nat
  | [] => 0
  | d :: rest => d + 10 * ofDigits rest

/-- Decimal rendering of a natural number, as JavaScript template
interpolation produces it. -/
def natRepr (n : Nat) : String :=
  if n = 0 then "0" else ⟨((natDigits n).reverse.map digitChar)⟩

theorem ofDigits_natDigitsAux :
    ∀ (fuel n : Nat), n ≤ fuel → ofDigits (natDigitsAux fuel n) = n := by
  intro fuel
  induction fuel with
  | zero =>
    intro n hn
    interval_cases n
    simp [natDigitsAux, ofDigits]
  | succ fuel ih =>
    intro n hn
    by_cases h0 : n = 0
    · simp [natDigitsAux, h0, ofDigits]
    · rw [natDigitsAux, if_neg h0, ofDigits]
      have hdiv : n / 10 ≤ fuel := by
        have := Nat.div_lt_self (Nat.pos_of_ne_zero h0) (by norm_num : 1 < 10)
        omega
      rw [ih _ hdiv]
      omega

theorem ofDigits_natDigits (n : Nat) : ofDigits (natDigits n) = n :=
  ofDigits_natDigitsAux n n (Nat.le_refl n)

theorem natDigitsAux_lt_ten :
    ∀ (fuel n : Nat), ∀ d ∈ natDigitsAux fuel n, d < 10 := by
  intro fuel
  induction fuel with
  | zero => intro n d hd; simp [natDigitsAux] at hd
  | succ fuel ih =>
    intro n d hd
    by_cases h0 : n = 0
    · simp [natDigitsAux, h0] at hd
    · rw [natDigitsAux, if_neg h0] at hd
      rcases List.mem_cons.mp hd with rfl | hd
      · exact Nat.mod_lt n (by norm_num)
      · exact ih _ d hd

theorem digitChar_inj : ∀ d₁ < 10, ∀ d₂ < 10,
    digitChar d₁ = digitChar d₂ → d₁ = d₂ := by decide

theorem map_digitChar_inj : ∀ l₁ l₂ : List Nat, (∀ d ∈ l₁, d < 10) →
    (∀ d ∈ l₂, d < 10) → l₁.map digitChar = l₂.map digitChar → l₁ = l₂ := by
  intro l₁
  induction l₁ with
  | nil => intro l₂ _ _ h; cases l₂ <;> simp_all
  | cons a t ih =>
    intro l₂ h₁ h₂ h
    cases l₂ with
    | nil => simp_all
    | cons b t₂ =>
      simp only [List.map_cons, List.cons.injEq] at h
      have ha : a = b := digitChar_inj a (h₁ a (by simp)) b (h₂ b (by simp)) h.1
      have ht : t = t₂ := ih t₂ (fun d hd => h₁ d (by simp [hd]))
        (fun d hd => h₂ d (by simp [hd])) h.2
      simp [ha, ht]

theorem natDigits_ne_nil {n : Nat} (hn : 0 < n) : natDigits n ≠ [] := by
  rw [natDigits]
  cases n with
  | zero => omega
  | succ k =>
    rw [natDigitsAux, if_neg (by omega)]
    simp

theorem natRepr_data_length_pos (n : Nat) : 0 < (natRepr n).data.length := by
  by_cases h : n = 0
  · rw [natRepr, if_pos h]; decide
  · rw [natRepr, if_neg h]
    cases hdig : natDigits n with
    | nil => exact absurd hdig (natDigits_ne_nil (Nat.pos_of_ne_zero h))
    | cons d t => simp [hdig]

theorem natRepr_inj {m n : Nat} (hm : 0 < m) (hn : 0 < n)
    (h : natRepr m = natRepr n) : m = n := by
  rw [natRepr, natRepr, if_neg (by omega : ¬ m = 0), if_neg (by omega : ¬ n = 0)] at h
  have hdata : ((natDigits m).reverse.map digitChar) =
      ((natDigits n).reverse.map digitChar) := congrArg String.data h
  have hrev : (natDigits m).reverse = (natDigits n).reverse :=
    map_digitChar_inj _ _
      (fun d hd => natDigitsAux_lt_ten m m d (List.mem_reverse.mp hd))
      (fun d hd => natDigitsAux_lt_ten n n d (List.mem_reverse.mp hd)) hdata
  have hdig : natDigits m = natDigits n := List.reverse_injective hrev
  have h1 := ofDigits_natDigits m
  have h2 := ofDigits_natDigits n
  rw [hdig] at h1
  omega

/-! ## The slug-collision loop

```js
const baseSlug = slugify(title);
let slug = baseSlug;
let suffix = 1;
while (articles.some(a => a.slug === slug)) {
  slug = `${baseSlug}-${suffix++}`;
}
```

The loop successively tries `base`, `base-1`, `base-2`, … and stops at
the first candidate carried by no stored article.  We embed the
candidate sequence, run the scan with enough fuel, and prove the fuel
is always sufficient. -/

/-- The `k`-th candidate tried by the slug loop: the base slug itself,
then the base slug with the decimal counter suffix. -/
def slugCandidate (base : String) : Nat → String
  | 0 => base
  | Nat.succ k => base ++ "-" ++ natRepr (k + 1)

theorem data_append (a b : String) : (a ++ b).data = a.data ++ b.data := rfl

theorem string_ext {a b : String} (h : a.data = b.data) : a = b :=
  congrArg String.mk h

theorem slugCandidate_data (base : String) (k : Nat) :
    (slugCandidate base (k + 1)).data =
      (base.data ++ ['-']) ++ (natRepr (k + 1)).data := by
  simp only [slugCandidate, data_append]

theorem slugCandidate_inj (base : String) :
    Function.Injective (slugCandidate base) := by
  intro j k h
  match j, k with
  | 0, 0 => rfl
  | 0, Nat.succ k =>
    exfalso
    have hdata : (slugCandidate base 0).data = (slugCandidate base (k + 1)).data :=
      congrArg String.data h
    rw [slugCandidate_data] at hdata
    have hlen := congrArg List.length hdata
    simp only [slugCandidate, List.length_append] at hlen
    have := natRepr_data_length_pos (k + 1)
    omega
  | Nat.succ j, 0 =>
    exfalso
    have hdata : (slugCandidate base (j + 1)).data = (slugCandidate base 0).data :=
      congrArg String.data h
    rw [slugCandidate_data] at hdata
    have hlen := congrArg List.length hdata
    simp only [slugCandidate, List.length_append] at hlen
    have := natRepr_data_length_pos (j + 1)
    omega
  | Nat.succ j, Nat.succ k =>
    have hdata : (slugCandidate base (j + 1)).data = (slugCandidate base (k + 1)).data :=
      congrArg String.data h
    rw [slugCandidate_data, slugCandidate_data] at hdata
    have hrepr : (natRepr (j + 1)).data = (natRepr (k + 1)).data :=
      List.append_cancel_left hdata
    have : natRepr (j + 1) = natRepr (k + 1) := string_ext hrepr
    have := natRepr_inj (by omega) (by omega) this
    omega

/-- The body of the collision loop: starting from candidate index `k`,
scan while the candidate is carried by a stored slug, giving up (and
returning the current candidate unchecked) when the fuel runs out. -/
def findSlugAux (slugs : List String) (base : String) : Nat → Nat → String
  | 0, k => slugCandidate base k
  | Nat.succ fuel, k =>
    if slugs.contains (slugCandidate base k) then
      findSlugAux slugs base fuel (k + 1)
    else
      slugCandidate base k

/-- The slug assigned by the loop: first free candidate.  A fuel of
`slugs.length + 1` is enough, as proved below. -/
def assignSlug (slugs : List String) (base : String) : String :=
  findSlugAux slugs base (slugs.length + 1) 0

/-- Within any window of `slugs.length + 1` candidates there is a free
one: the candidates are pairwise distinct, so they cannot all occur
among the `slugs.length` stored slugs. -/
theorem exists_free_candidate (slugs : List String) (base : String) :
    ∃ j, j ≤ slugs.length ∧ slugs.contains (slugCandidate base j) = false := by
  by_contra hcontra
  push_neg at hcontra
  have htaken : ∀ j ≤ slugs.length, slugCandidate base j ∈ slugs := by
    intro j hj
    have := hcontra j hj
    have hb : slugs.contains (slugCandidate base j) = true := by
      cases hcb : slugs.contains (slugCandidate base j) with
      | false => exact absurd hcb this
      | true => rfl
    simpa [List.elem_iff] using hb
  have hsub : ((List.range (slugs.length + 1)).map (slugCandidate base)) ⊆ slugs := by
    intro s hs
    simp only [List.mem_map, List.mem_range] at hs
    obtain ⟨j, hj, rfl⟩ := hs
    exact htaken j (by omega)
  have hnd : ((List.range (slugs.length + 1)).map (slugCandidate base)).Nodup :=
    (List.nodup_range _).map (slugCandidate_inj base)
  have hle := (List.subperm_of_subset hnd hsub).length_le
  simp at hle

/-- Characterisation of the scan: if a free candidate exists in the
window, the scan returns the first free candidate at or after `k`. -/
theorem findSlugAux_spec (slugs : List String) (base : String) :
    ∀ fuel k, (∃ j, k ≤ j ∧ j < k + fuel ∧
        slugs.contains (slugCandidate base j) = false) →
      ∃ m, k ≤ m ∧ findSlugAux slugs base fuel k = slugCandidate base m ∧
        slugs.contains (slugCandidate base m) = false ∧
        ∀ i, k ≤ i → i < m → slugs.contains (slugCandidate base i) = true := by
  intro fuel
  induction fuel with
  | zero =>
    intro k ⟨j, hj1, hj2, _⟩
    omega
  | succ fuel ih =>
    intro k ⟨j, hj1, hj2, hjfree⟩
    simp only [findSlugAux]
    cases hck : slugs.contains (slugCandidate base k) with
    | false =>
      exact ⟨k, Nat.le_refl k, by simp [hck], hck, fun i h1 h2 => by omega⟩
    | true =>
      have hjk : j ≠ k := fun h => by rw [h] at hjfree; rw [hck] at hjfree; cases hjfree
      obtain ⟨m, hm1, hm2, hm3, hm4⟩ := ih (k + 1) ⟨j, by omega, by omega, hjfree⟩
      refine ⟨m, by omega, by simp [hm2], hm3, ?_⟩
      intro i h1 h2
      by_cases hik : i = k
      · rw [hik]; exact hck
      · exact hm4 i (by omega) h2

/-- The assigned slug: it is the first free candidate. -/
theorem assignSlug_spec (slugs : List String) (base : String) :
    ∃ m, assignSlug slugs base = slugCandidate base m ∧
      slugs.contains (slugCandidate base m) = false ∧
      ∀ i, i < m → slugs.contains (slugCandidate base i) = true := by
  obtain ⟨j, hj1, hj2⟩ := exists_free_candidate slugs base
  obtain ⟨m, _, h2, h3, h4⟩ := findSlugAux_spec slugs base (slugs.length + 1) 0
    ⟨j, by omega, by omega, hj2⟩
  exact ⟨m, h2, h3, fun i hi => h4 i (by omega) hi⟩

/-- The assigned slug collides with no stored slug. -/
theorem assignSlug_not_mem (slugs : List String) (base : String) :
    assignSlug slugs base ∉ slugs := by
  obtain ⟨m, h1, h2, _⟩ := assignSlug_spec slugs base
  rw [h1]
  intro hmem
  have : slugs.contains (slugCandidate base m) = true := by
    simpa [List.elem_iff] using hmem
  rw [h2] at this
  cases this

/-! ## Slugify

The server lowercases the title and then applies five regex passes:
replace each whitespace run by a dash, delete every character that is
neither a word character nor a dash, collapse dash runs, and trim
leading and trailing dashes.  Each pass is embedded as a
character-list transformation. -/

/-- JavaScript `toLowerCase`, embedded as the character-wise case map. -/
def jsToLower (s : String) : String := ⟨s.data.map Char.toLower⟩

/-- JavaScript `trim`: strip whitespace from both ends. -/
def jsTrim (s : String) : String :=
  ⟨((s.data.dropWhile Char.isWhitespace).reverse.dropWhile Char.isWhitespace).reverse⟩

/-- JavaScript `startsWith`. -/
def strStarts (s pre : String) : Bool :=
  s.data.take pre.data.length == pre.data

/-- JavaScript `endsWith`. -/
def strEnds (s suf : String) : Bool :=
  s.data.reverse.take suf.data.length == suf.data.reverse

theorem dropWhile_length_le (p : Char → Bool) (l : List Char) :
    (l.dropWhile p).length ≤ l.length := by
  induction l with
  | nil => simp [List.dropWhile]
  | cons a t ih =>
    simp only [List.dropWhile]
    split
    · exact Nat.le_trans ih (by simp)
    · simp

/-- Run-replacement automaton for `\s+` → `'-'`: the flag records
whether the scan is inside a whitespace run (which already emitted its
dash). -/
def wsRunsToDashAux : Bool → List Char → List Char
  | _, [] => []
  | inRun, c :: cs =>
    if c.isWhitespace then
      if inRun then wsRunsToDashAux true cs
      else '-' :: wsRunsToDashAux true cs
    else c :: wsRunsToDashAux false cs

/-- `\s+` replaced by a single `'-'`: each maximal whitespace run maps
to one dash. -/
def wsRunsToDash (l : List Char) : List Char := wsRunsToDashAux false l

/-- A JavaScript word character (`\w`, i.e. `[A-Za-z0-9_]`). -/
def isWordChar (c : Char) : Bool :=
  (('a' ≤ c && c ≤ 'z') || ('A' ≤ c && c ≤ 'Z') || ('0' ≤ c && c ≤ '9') || c = '_')

/-- Run-replacement automaton for `\-\-+` → `'-'`: the flag records
whether the scan is inside a dash run (whose first dash was already
emitted). -/
def collapseDashesAux : Bool → List Char → List Char
  | _, [] => []
  | inRun, c :: cs =>
    if c = '-' then
      if inRun then collapseDashesAux true cs
      else '-' :: collapseDashesAux true cs
    else c :: collapseDashesAux false cs

/-- Runs of dashes collapsed to a single dash. -/
def collapseDashes (l : List Char) : List Char := collapseDashesAux false l

/-- Trim dashes from the start (`^-+`) and the end (`-+$`). -/
def trimDashes (l : List Char) : List Char :=
  (((l.dropWhile (· = '-')).reverse.dropWhile (· = '-')).reverse)

/-- The slugify utility of the server. -/
def slugify (text : String) : String :=
  ⟨trimDashes (collapseDashes
    ((wsRunsToDash (jsToLower text).data).filter (fun c => isWordChar c || c = '-')))⟩

/-! ## Data model -/

/-- The category value stored on an article after normalization:
a plain string, an array of strings, or JSON `null`. -/
inductive CategoryVal where
  | str (s : String)
  | arr (l : List String)
  | null
deriving DecidableEq, Repr

/-- A stored article.  (Fields irrelevant to the verified claims, such
as the blur placeholder, are folded into the ones kept here.) -/
structure Article where
  id : Int
  slug : String
  title : String
  content : String
  category : CategoryVal
  imageUrl : String
deriving DecidableEq, Repr

/-- A JSON body field that may be absent, hold a string, or hold a
truthy non-string value. -/
inductive StrField where
  | absent
  | str (s : String)
  | nonstr
deriving DecidableEq, Repr

/-- The raw `category` field of a request body: an array of strings, a
single string, or anything else. -/
inductive CatIn where
  | arrIn (l : List String)
  | strIn (s : String)
  | otherIn
deriving DecidableEq, Repr

/-! ## Category normalization

```js
if (Array.isArray(category)) {
  const unique = [...new Set(category.map(c => c.trim()).filter(Boolean))];
  category = unique.length === 1 ? unique[0] : unique;
} else if (typeof category === "string") {
  category = category.trim() || null;
} else {
  category = null;
}
```
-/

/-- Insertion into a JavaScript `Set`, spread back into an array: keep
the elements whose equal value was not seen before. -/
def jsSetDedupAux : List String → List String → List String
  | [], _ => []
  | s :: rest, seen =>
    if s ∈ seen then jsSetDedupAux rest seen
    else s :: jsSetDedupAux rest (s :: seen)

/-- `[...new Set(l)]`: deduplication preserving insertion order. -/
def jsSetDedup (l : List String) : List String :=
  jsSetDedupAux l []

/-- The category normalization of the POST and PUT article handlers. -/
def normalizeCategory : CatIn → CategoryVal
  | .arrIn l =>
    let unique := jsSetDedup ((l.map jsTrim).filter (fun s => s ≠ ""))
    match unique with
    | [s] => .str s
    | u => .arr u
  | .strIn s => if jsTrim s = "" then .null else .str (jsTrim s)
  | .otherIn => .null

/-- Deduplication keeping the first occurrence, written the way the
specification describes it: keep the head, drop its later duplicates,
recurse. -/
def dedupKeepFirst : List String → List String
  | [] => []
  | s :: rest => s :: dedupKeepFirst (rest.filter (fun x => x ≠ s))
termination_by l => l.length
decreasing_by
  simp_wf
  have := List.length_filter_le (fun x => !decide (x = s)) rest
  omega

theorem dedupKeepFirst_nil : dedupKeepFirst [] = [] := by rw [dedupKeepFirst]

theorem dedupKeepFirst_cons (s : String) (rest : List String) :
    dedupKeepFirst (s :: rest) = s :: dedupKeepFirst (rest.filter (fun x => x ≠ s)) := by
  rw [dedupKeepFirst]

theorem jsSetDedupAux_eq (l : List String) : ∀ seen : List String,
    jsSetDedupAux l seen = dedupKeepFirst (l.filter (fun s => s ∉ seen)) := by
  induction l with
  | nil => intro seen; simp [jsSetDedupAux, dedupKeepFirst_nil]
  | cons a rest ih =>
    intro seen
    by_cases ha : a ∈ seen
    · rw [jsSetDedupAux, if_pos ha]
      have hsame : (List.filter (fun s => decide (s ∉ seen)) (a :: rest)) =
          List.filter (fun s => decide (s ∉ seen)) rest := by
        simp [List.filter, ha]
      rw [ih seen]
      simp only [hsame]
    · rw [jsSetDedupAux, if_neg ha]
      have hcons : (List.filter (fun s => decide (s ∉ seen)) (a :: rest)) =
          a :: List.filter (fun s => decide (s ∉ seen)) rest := by
        simp [List.filter, ha]
      simp only [hcons, dedupKeepFirst_cons]
      rw [ih (a :: seen)]
      congr 1
      rw [List.filter_filter]
      have hfil : List.filter (fun s => decide (s ∉ a :: seen)) rest =
          List.filter (fun x => decide (x ≠ a) && decide (x ∉ seen)) rest := by
        apply List.filter_congr
        intro x _
        by_cases hx : x = a <;> by_cases hs : x ∈ seen <;> simp [hx, hs]
      rw [hfil]

/-- The `Set`-based deduplication equals first-occurrence
deduplication. -/
theorem jsSetDedup_eq_dedupKeepFirst (l : List String) :
    jsSetDedup l = dedupKeepFirst l := by
  rw [jsSetDedup, jsSetDedupAux_eq l []]
  congr 1
  apply List.filter_eq_self.mpr
  intro a _
  simp

theorem dedupKeepFirst_subset_aux :
    ∀ (n : Nat) (l : List String), l.length ≤ n → dedupKeepFirst l ⊆ l := by
  intro n
  induction n with
  | zero =>
    intro l h
    cases l with
    | nil => simp [dedupKeepFirst_nil]
    | cons s rest => simp at h
  | succ n ih =>
    intro l h
    cases l with
    | nil => simp [dedupKeepFirst_nil]
    | cons s rest =>
      rw [dedupKeepFirst_cons]
      intro x hx
      rcases List.mem_cons.mp hx with hh | hh
      · simp [hh]
      · have hle : (rest.filter (fun x => x ≠ s)).length ≤ n := by
          have := List.length_filter_le (fun x => !decide (x = s)) rest
          simp only [List.length_cons] at h
          simpa [ne_eq, decide_not] using Nat.le_trans this (by omega)
        have := ih _ hle hh
        simp only [List.mem_filter] at this
        simp [this.1]

/-- Elements of the deduplicated list come from the original list. -/
theorem dedupKeepFirst_subset (l : List String) : dedupKeepFirst l ⊆ l :=
  dedupKeepFirst_subset_aux l.length l (Nat.le_refl _)

theorem dedupKeepFirst_nodup_aux :
    ∀ (n : Nat) (l : List String), l.length ≤ n → (dedupKeepFirst l).Nodup := by
  intro n
  induction n with
  | zero =>
    intro l h
    cases l with
    | nil => simp [dedupKeepFirst_nil]
    | cons s rest => simp at h
  | succ n ih =>
    intro l h
    cases l with
    | nil => simp [dedupKeepFirst_nil]
    | cons s rest =>
      rw [dedupKeepFirst_cons]
      have hle : (rest.filter (fun x => x ≠ s)).length ≤ n := by
        have := List.length_filter_le (fun x => !decide (x = s)) rest
        simp only [List.length_cons] at h
        simpa [ne_eq, decide_not] using Nat.le_trans this (by omega)
      refine List.Nodup.cons ?_ (ih _ hle)
      intro hmem
      have := dedupKeepFirst_subset _ hmem
      simp at this

/-- First-occurrence deduplication yields a duplicate-free list. -/
theorem dedupKeepFirst_nodup (l : List String) : (dedupKeepFirst l).Nodup :=
  dedupKeepFirst_nodup_aux l.length l (Nat.le_refl _)

/-! ## Article routes

Each handler is a pure function from the stored list and request data
to an HTTP status and the stored list after the request.  A handler
that only reads returns the stored list unchanged as its second
component. -/

/-- `POST /articles`.  Validates the title (a truthy string), normalizes
the category, assigns a collision-free slug, and prepends (`unshift`)
the new article.  `now` is the `Date.now()` timestamp used as id,
`imageUrl` summarises the upload branch. -/
def postArticleRoute (articles : List Article) (now : Int) (title? : StrField)
    (content : String) (catIn : CatIn) (imageUrl : String) : Nat × List Article :=
  match title? with
  | .str t =>
    if t = "" then (400, articles)
    else
      let category := normalizeCategory catIn
      let slug := assignSlug (articles.map (·.slug)) (slugify t)
      (201, { id := now, slug := slug, title := t, content := content,
              category := category, imageUrl := imageUrl } :: articles)
  | _ => (400, articles)

/-- `DELETE /articles/:id`.  Filters out the articles with the parsed
id; when nothing was removed, answers 404 and leaves the file alone. -/
def deleteArticleRoute (articles : List Article) (id : Int) : Nat × List Article :=
  if (articles.filter (fun a => a.id ≠ id)).length = articles.length then
    (404, articles)
  else
    (200, articles.filter (fun a => a.id ≠ id))

/-- The category filter predicate of `GET /articles`: an array-valued
category matches when some element matches case-insensitively, a string
category when it matches case-insensitively, anything else never. -/
def articleMatchesCategory (catLower : String) (a : Article) : Bool :=
  match a.category with
  | .arr l => l.any (fun c => jsToLower c == catLower)
  | .str s => jsToLower s == catLower
  | .null => false

/-- The `if (category) { ... }` step of `GET /articles`: an absent or
empty (falsy) parameter skips the filter. -/
def applyCategoryFilter (category : Option String) (articles : List Article) :
    List Article :=
  match category with
  | none => articles
  | some c =>
    if c = "" then articles
    else articles.filter (articleMatchesCategory (jsToLower c))

/-- The `if (excludeId) { ... }` step of `GET /articles`.  The argument
is the outcome of `Number(excludeId)`: `none` when the parameter is
absent, empty, or does not parse (`NaN`), in which case the filter is
skipped. -/
def applyExcludeFilter (ex : Option Int) (articles : List Article) : List Article :=
  match ex with
  | none => articles
  | some n => articles.filter (fun a => a.id ≠ n)

/-- `GET /articles` with the optional `category` and `excludeId`
filters.  The route only reads the file, so the stored list (second
component) passes through unchanged. -/
def getArticlesRoute (articles : List Article) (category : Option String)
    (ex : Option Int) : List Article × List Article :=
  (applyExcludeFilter ex (applyCategoryFilter category articles), articles)

/-- First-match in-place update, as `findIndex` + `articles[index] = …`
performs it. -/
def updateFirst (p : Article → Bool) (f : Article → Article) :
    List Article → Option (List Article)
  | [] => none
  | a :: rest =>
    if p a then some (f a :: rest)
    else (updateFirst p f rest).map (fun r => a :: r)

/-- The update applied to the matched article by `PUT /articles/:id`:
title/slug update when the title changed, then content and category. -/
def putUpdate (articles : List Article) (id : Int) (title? content? : StrField)
    (category : CategoryVal) (article : Article) : Article :=
  let st : String × String :=
    match title? with
    | .str t =>
      if t ≠ "" ∧ t ≠ article.title then
        (assignSlug ((articles.filter (fun a => a.id ≠ id)).map (·.slug)) (slugify t), t)
      else if t ≠ "" then (article.slug, t)
      else (article.slug, article.title)
    | _ => (article.slug, article.title)
  let content :=
    match content? with
    | .str c => if c ≠ "" then c else article.content
    | _ => article.content
  let category := if category ≠ .null then category else article.category
  { article with slug := st.1, title := st.2, content := content,
                 category := category }

/-- `PUT /articles/:id`.  Answers 400 on an unparsable id, 404 when no
article has the id, 400 on a truthy non-string title or content, and
otherwise updates the first matching article in place, re-running the
slug loop (excluding articles with this id) when the title changed. -/
def putArticleRoute (articles : List Article) (id? : Option Int)
    (title? content? : StrField) (catIn : CatIn) : Nat × List Article :=
  match id? with
  | none => (400, articles)
  | some id =>
    if ¬ articles.any (fun a => a.id == id) then (404, articles)
    else if title? = .nonstr then (400, articles)
    else if content? = .nonstr then (400, articles)
    else
      let category := normalizeCategory catIn
      match updateFirst (fun a => a.id == id)
          (putUpdate articles id title? content? category) articles with
      | some updated => (200, updated)
      | none => (404, articles)

/-! ## Category routes -/

/-- `POST /categories`.  Rejects a falsy, non-string, or
whitespace-only category with 400, an already stored one with 409, and
otherwise pushes it at the end. -/
def postCategoryRoute (categories : List String) (category : StrField) :
    Nat × List String :=
  match category with
  | .str c =>
    if c = "" then (400, categories)
    else if jsTrim c = "" then (400, categories)
    else if c ∈ categories then (409, categories)
    else (201, categories ++ [c])
  | _ => (400, categories)

/-- `DELETE /categories/:category`.  404 when the name is not stored,
otherwise keeps exactly the entries different from it. -/
def deleteCategoryRoute (categories : List String) (target : String) :
    Nat × List String :=
  if target ∉ categories then (404, categories)
  else (200, categories.filter (fun c => c ≠ target))

/-! ## Backup and restore

This layer works on raw file contents: `GET /admin/backup` zips the
bytes of the two data files (plus the uploaded images), and
`POST /admin/restore` writes entry bytes back to disk. -/

/-- One entry of a ZIP archive: a path and its bytes. -/
structure ZipEntry where
  path : String
  content : String
deriving DecidableEq, Repr

/-- The persisted files: the two JSON data files and the uploads
directory listing. -/
structure FileStore where
  articlesData : String
  categoriesData : String
  uploads : List (String × String)
deriving DecidableEq, Repr

/-- `GET /admin/backup`: an archive holding `articles.json` and
`categories.json` with the current file contents, then the uploads
directory under `uploads/`. -/
def backupRoute (s : FileStore) : List ZipEntry :=
  ⟨"articles.json", s.articlesData⟩ :: ⟨"categories.json", s.categoriesData⟩ ::
    s.uploads.map (fun u => ⟨"uploads/" ++ u.1, u.2⟩)

/-- `fs.writeFileSync` into the uploads directory: overwrite the file
when present, create it otherwise. -/
def writeUpload (ups : List (String × String)) (name content : String) :
    List (String × String) :=
  if ups.any (fun u => u.1 == name) then
    ups.map (fun u => if u.1 == name then (u.1, content) else u)
  else ups ++ [(name, content)]

/-- Extraction of the `uploads/` entries of the archive during restore.
The guard mirrors `f.path.startsWith("uploads/") && !f.path.endsWith("/")`,
and the destination name drops the `uploads/` prefix (the `replace`
call in the source, which rewrites the leading occurrence). -/
def restoreUploads (zip : List ZipEntry) (ups : List (String × String)) :
    List (String × String) :=
  zip.foldl
    (fun acc f =>
      if strStarts f.path "uploads/" && !(strEnds f.path "/") then
        writeUpload acc (f.path.drop 8) f.content
      else acc)
    ups

/-- `POST /admin/restore`.  400 when no file was uploaded or when the
archive misses `articles.json` or `categories.json`; otherwise the two
data files are overwritten with the entry bytes and the `uploads/`
entries are extracted. -/
def restoreRoute (file? : Option (List ZipEntry)) (s : FileStore) :
    Nat × FileStore :=
  match file? with
  | none => (400, s)
  | some zip =>
    match zip.find? (fun f => f.path == "articles.json"),
          zip.find? (fun f => f.path == "categories.json") with
    | some art, some cat =>
      (200, { articlesData := art.content, categoriesData := cat.content,
              uploads := restoreUploads zip s.uploads })
    | _, _ => (400, s)

/-! ## The operation sequences of claim C8 -/

/-- One client operation against the articles store: a creation (with
its `Date.now()` timestamp and request data) or a deletion. -/
inductive Op where
  | create (now : Int) (title? : StrField) (content : String)
      (catIn : CatIn) (imageUrl : String)
  | del (id : Int)

/-- The id carried by each creation of a sequence, in order. -/
def createIds (ops : List Op) : List Int :=
  ops.filterMap (fun o =>
    match o with
    | .create now _ _ _ _ => some now
    | .del _ => none)

/-- Running a sequence of operations against a stored list. -/
def runOps : List Op → List Article → List Article
  | [], s => s
  | .create now title? content catIn imageUrl :: rest, s =>
    runOps rest (postArticleRoute s now title? content catIn imageUrl).2
  | .del id :: rest, s => runOps rest (deleteArticleRoute s id).2

/-! ## Generic helper lemmas -/

theorem filter_length_eq_length_iff {α : Type} (p : α → Bool) :
    ∀ l : List α, ((l.filter p).length = l.length ↔ ∀ a ∈ l, p a) := by
  intro l
  induction l with
  | nil => simp
  | cons a t ih =>
    by_cases hpa : p a = true
    · rw [List.filter_cons, if_pos hpa]
      simp only [List.length_cons]
      constructor
      · intro h x hx
        rcases List.mem_cons.mp hx with rfl | hx
        · exact hpa
        · exact ih.mp (by omega) x hx
      · intro h
        have := ih.mpr (fun x hx => h x (List.mem_cons_of_mem a hx))
        omega
    · rw [List.filter_cons, if_neg hpa]
      simp only [List.length_cons]
      constructor
      · intro h
        have := List.length_filter_le p t
        omega
      · intro h
        exact absurd (h a (List.mem_cons_self a t)) hpa

theorem contains_true_iff (l : List String) (s : String) :
    l.contains s = true ↔ s ∈ l := by
  simp [List.elem_iff]

theorem contains_false_iff (l : List String) (s : String) :
    l.contains s = false ↔ s ∉ l := by
  rw [← Bool.not_eq_true]
  exact not_congr (contains_true_iff l s)

/-! ## Claim C2 — backup followed by restore is the identity -/

/-- C2: feeding the ZIP produced by `GET /admin/backup` (entries
`articles.json` and `categories.json` holding the current file
contents) to `POST /admin/restore` succeeds and leaves the stored
articles and categories files equal to what they were at backup
time. -/
theorem backup_restore_roundtrip (s : FileStore) :
    (restoreRoute (some (backupRoute s)) s).1 = 200 ∧
    (restoreRoute (some (backupRoute s)) s).2.articlesData = s.articlesData ∧
    (restoreRoute (some (backupRoute s)) s).2.categoriesData = s.categoriesData := by
  have hfind1 : (backupRoute s).find? (fun f => f.path == "articles.json") =
      some ⟨"articles.json", s.articlesData⟩ := by
    rw [backupRoute, List.find?]
    simp
  have hfind2 : (backupRoute s).find? (fun f => f.path == "categories.json") =
      some ⟨"categories.json", s.categoriesData⟩ := by
    rw [backupRoute, List.find?]
    simp [List.find?]
  simp [restoreRoute, hfind1, hfind2]

/-! ## Claim C3 — restore overwrites exactly the two data files -/

/-- C3: `POST /admin/restore` locates the entries named
`articles.json` and `categories.json`; with both present it answers
200 and overwrites the two data files with exactly those entries'
contents, and with either absent — or no file uploaded at all — it
answers 400 and leaves both data files unchanged. -/
theorem restore_exact (file? : Option (List ZipEntry)) (s : FileStore) :
    (file? = none → restoreRoute file? s = (400, s)) ∧
    (∀ zip, file? = some zip →
      ((zip.find? (fun f => f.path == "articles.json") = none ∨
        zip.find? (fun f => f.path == "categories.json") = none) →
        restoreRoute file? s = (400, s)) ∧
      (∀ art cat, zip.find? (fun f => f.path == "articles.json") = some art →
        zip.find? (fun f => f.path == "categories.json") = some cat →
        (restoreRoute file? s).1 = 200 ∧
        (restoreRoute file? s).2.articlesData = art.content ∧
        (restoreRoute file? s).2.categoriesData = cat.content)) := by
  refine ⟨fun h => by rw [h, restoreRoute], ?_⟩
  rintro zip rfl
  constructor
  · intro hmiss
    rcases hmiss with h | h
    · simp [restoreRoute, h]
    · rw [restoreRoute]
      cases hart : zip.find? (fun f => f.path == "articles.json") with
      | none => simp [h]
      | some a => simp [h]
  · intro art cat h1 h2
    simp [restoreRoute, h1, h2]

/-- Witness for C3 at a concrete archive. -/
theorem restore_exact_witness :
    (restoreRoute (some [⟨"articles.json", "[1]"⟩, ⟨"categories.json", "[]"⟩])
        ⟨"old", "oldc", []⟩).2.articlesData = "[1]" := by
  have h := restore_exact (some [⟨"articles.json", "[1]"⟩, ⟨"categories.json", "[]"⟩])
    ⟨"old", "oldc", []⟩
  exact (((h.2 _ rfl).2 ⟨"articles.json", "[1]"⟩ ⟨"categories.json", "[]"⟩
    (by rfl) (by rfl)).2).1

/-! ## Claim C6 — DELETE /articles/:id -/

/-- C6: `DELETE /articles/:id` removes exactly the articles whose id
equals the parsed id, keeping the rest in their original order; with
no stored match it answers 404 and leaves the articles file unchanged,
otherwise it answers with success. -/
theorem delete_article_exact (articles : List Article) (id : Int) :
    ((∀ a ∈ articles, a.id ≠ id) → deleteArticleRoute articles id = (404, articles)) ∧
    ((∃ a ∈ articles, a.id = id) →
      (deleteArticleRoute articles id).1 = 200 ∧
      (deleteArticleRoute articles id).2 = articles.filter (fun a => a.id ≠ id) ∧
      List.Sublist (deleteArticleRoute articles id).2 articles ∧
      (∀ x, x ∈ (deleteArticleRoute articles id).2 ↔ x ∈ articles ∧ x.id ≠ id)) := by
  constructor
  · intro h
    have hfeq : articles.filter (fun a => a.id ≠ id) = articles :=
      List.filter_eq_self.mpr (fun a ha => by simpa using h a ha)
    rw [deleteArticleRoute, hfeq, if_pos rfl]
  · intro ⟨a, ha, haid⟩
    have hlen : (articles.filter (fun x => x.id ≠ id)).length ≠ articles.length := by
      intro hc
      have := (filter_length_eq_length_iff _ articles).mp hc a ha
      simp [haid] at this
    have hroute : deleteArticleRoute articles id =
        (200, articles.filter (fun x => x.id ≠ id)) := by
      rw [deleteArticleRoute, if_neg hlen]
    rw [hroute]
    refine ⟨rfl, rfl, List.filter_sublist articles, ?_⟩
    intro x
    simp [List.mem_filter]

/-- Witness for C6 at a concrete store. -/
theorem delete_article_exact_witness :
    deleteArticleRoute [⟨1, "s", "t", "c", .null, ""⟩] 2 =
      (404, [⟨1, "s", "t", "c", .null, ""⟩]) ∧
    (deleteArticleRoute [⟨1, "s", "t", "c", .null, ""⟩] 1).1 = 200 := by
  have h := delete_article_exact [⟨1, "s", "t", "c", .null, ""⟩] 2
  have h1 := delete_article_exact [⟨1, "s", "t", "c", .null, ""⟩] 1
  refine ⟨h.1 ?_, (h1.2 ⟨⟨1, "s", "t", "c", .null, ""⟩, by simp, rfl⟩).1⟩
  intro a ha
  rw [List.mem_singleton.mp ha]
  decide

/-! ## Claim C9 — excludeId filter -/

/-- C9: when `excludeId` does not parse as a number the exclusion
filter is skipped and no article is removed; when it parses, exactly
the articles with that id are omitted. -/
theorem exclude_filter_exact (articles : List Article) (ex : Option Int) :
    (ex = none → (getArticlesRoute articles none ex).1 = articles) ∧
    (∀ n, ex = some n →
      List.Sublist (getArticlesRoute articles none ex).1 articles ∧
      (∀ x, x ∈ (getArticlesRoute articles none ex).1 ↔ x ∈ articles ∧ x.id ≠ n)) := by
  constructor
  · rintro rfl
    rfl
  · rintro n rfl
    refine ⟨List.filter_sublist articles, ?_⟩
    intro x
    simp [getArticlesRoute, applyCategoryFilter, applyExcludeFilter, List.mem_filter]

/-- Witness for C9 at a concrete store. -/
theorem exclude_filter_exact_witness :
    (getArticlesRoute [⟨1, "s", "t", "c", .null, ""⟩] none none).1 =
      [⟨1, "s", "t", "c", .null, ""⟩] ∧
    ((getArticlesRoute [⟨1, "s", "t", "c", .null, ""⟩] none (some 1)).1 = []) := by
  have h := exclude_filter_exact [⟨1, "s", "t", "c", .null, ""⟩] none
  have h1 := exclude_filter_exact [⟨1, "s", "t", "c", .null, ""⟩] (some 1)
  refine ⟨h.1 rfl, ?_⟩
  have := (h1.2 1 rfl).2
  cases hres : (getArticlesRoute [⟨1, "s", "t", "c", .null, ""⟩] none (some 1)).1 with
  | nil => rfl
  | cons x xs =>
    exfalso
    have hx := (this x).mp (by rw [hres]; exact List.mem_cons_self x xs)
    have : x = (⟨1, "s", "t", "c", .null, ""⟩ : Article) := by
      simpa using hx.1
    rw [this] at hx
    exact hx.2 rfl

/-! ## Claim C10 — category list stays duplicate-free -/

/-- C10: starting from a duplicate-free categories list,
`POST /categories` answers 409 and changes nothing when the exact
string is already stored, appends a new valid category once at the
end, and `DELETE /categories/:category` removes every occurrence of
the name — so both operations preserve distinctness. -/
theorem categories_nodup_invariant (cats : List String) (hnd : cats.Nodup)
    (hvalid : ∀ x ∈ cats, jsTrim x ≠ "")
    (input : StrField) (target : String) :
    (∀ c, input = .str c → c ∈ cats → postCategoryRoute cats input = (409, cats)) ∧
    (∀ c, input = .str c → c ≠ "" → jsTrim c ≠ "" → c ∉ cats →
      postCategoryRoute cats input = (201, cats ++ [c])) ∧
    (postCategoryRoute cats input).2.Nodup ∧
    target ∉ (deleteCategoryRoute cats target).2 ∧
    (deleteCategoryRoute cats target).2.Nodup := by
  refine ⟨?_, ?_, ?_, ?_, ?_⟩
  · rintro c rfl hc
    have hct : jsTrim c ≠ "" := hvalid c hc
    have hcne : c ≠ "" := by
      intro h
      apply hct
      rw [h]
      rfl
    simp only [postCategoryRoute]
    rw [if_neg hcne, if_neg hct, if_pos hc]
  · rintro c rfl h1 h2 h3
    simp only [postCategoryRoute]
    rw [if_neg h1, if_neg h2, if_neg h3]
  · cases input with
    | str c =>
      simp only [postCategoryRoute]
      by_cases h1 : c = ""
      · rw [if_pos h1]; exact hnd
      · rw [if_neg h1]
        by_cases h2 : jsTrim c = ""
        · rw [if_pos h2]; exact hnd
        · rw [if_neg h2]
          by_cases h3 : c ∈ cats
          · rw [if_pos h3]; exact hnd
          · rw [if_neg h3]
            exact hnd.append (List.nodup_singleton c)
              (fun a ha hc => h3 ((List.mem_singleton.mp hc) ▸ ha))
    | absent => exact hnd
    | nonstr => exact hnd
  · rw [deleteCategoryRoute]
    by_cases h : target ∈ cats
    · rw [if_neg (by simpa using h)]
      intro hmem
      rcases List.mem_filter.mp hmem with ⟨_, hne⟩
      simp at hne
    · rw [if_pos h]
      exact h
  · rw [deleteCategoryRoute]
    by_cases h : target ∈ cats
    · rw [if_neg (by simpa using h)]
      exact hnd.filter _
    · rw [if_pos h]
      exact hnd

/-- Witness for C10 at a concrete category list. -/
theorem categories_nodup_invariant_witness :
    postCategoryRoute ["a", "b"] (.str "a") = (409, ["a", "b"]) ∧
    postCategoryRoute ["a", "b"] (.str "c") = (201, ["a", "b", "c"]) ∧
    "a" ∉ (deleteCategoryRoute ["a", "b"] "a").2 := by
  have h := categories_nodup_invariant ["a", "b"] (by decide)
    (by intro x hx; fin_cases hx <;> decide) (.str "a") "a"
  have h2 := categories_nodup_invariant ["a", "b"] (by decide)
    (by intro x hx; fin_cases hx <;> decide) (.str "c") "a"
  exact ⟨h.1 "a" rfl (by decide), h2.2.1 "c" rfl (by decide) (by decide) (by decide),
    h.2.2.2.1⟩

/-! ## Claim C5 — category normalization -/

/-- C5: for an array-valued category field, each element is trimmed,
falsy (empty) results are dropped, duplicates are removed keeping the
first occurrence, and the result is stored as a plain string when
exactly one element remains and as the deduplicated array otherwise;
a string category is trimmed and becomes null when empty; any other
value becomes null. -/
theorem normalize_category_spec :
    (∀ l : List String,
      normalizeCategory (.arrIn l) =
        (match dedupKeepFirst ((l.map jsTrim).filter (fun s => s ≠ "")) with
         | [s] => CategoryVal.str s
         | u => CategoryVal.arr u) ∧
      (dedupKeepFirst ((l.map jsTrim).filter (fun s => s ≠ ""))).Nodup ∧
      (∀ x ∈ dedupKeepFirst ((l.map jsTrim).filter (fun s => s ≠ "")),
        x ∈ l.map jsTrim ∧ x ≠ "")) ∧
    (∀ s : String,
      normalizeCategory (.strIn s) =
        if jsTrim s = "" then CategoryVal.null else CategoryVal.str (jsTrim s)) ∧
    normalizeCategory .otherIn = CategoryVal.null := by
  refine ⟨?_, fun s => rfl, rfl⟩
  intro l
  refine ⟨?_, dedupKeepFirst_nodup _, ?_⟩
  · simp only [normalizeCategory, jsSetDedup_eq_dedupKeepFirst]
  · intro x hx
    have := dedupKeepFirst_subset _ hx
    rcases List.mem_filter.mp this with ⟨hmem, hne⟩
    exact ⟨hmem, by simpa using hne⟩

/-- Witness for C5 at a concrete category array. -/
theorem normalize_category_spec_witness :
    normalizeCategory (.arrIn [" a ", "b", "a", ""]) = CategoryVal.arr ["a", "b"] ∧
    (∀ x ∈ dedupKeepFirst ((([" a ", "b", "a", ""].map jsTrim)).filter
        (fun s => s ≠ "")),
      x ∈ [" a ", "b", "a", ""].map jsTrim ∧ x ≠ "") :=
  ⟨by decide, (normalize_category_spec.1 [" a ", "b", "a", ""]).2.2⟩

/-! ## Claim C7 — category filter of GET /articles -/

/-- The matching relation the claim describes: an array-valued
category matches when some element matches case-insensitively, a
string category when it matches case-insensitively, and a null
category never. -/
def claimMatches (c : String) (a : Article) : Prop :=
  match a.category with
  | .arr l => ∃ s ∈ l, jsToLower s = jsToLower c
  | .str s => jsToLower s = jsToLower c
  | .null => False

/-- C7: `GET /articles?category=C` (for non-empty `C`) returns exactly
the stored articles matching `C` case-insensitively — element-wise for
array categories, directly for string categories — in stored order, and
the stored list is untouched. -/
theorem category_filter_exact (articles : List Article) (c : String) (h : c ≠ "") :
    (getArticlesRoute articles (some c) none).2 = articles ∧
    List.Sublist (getArticlesRoute articles (some c) none).1 articles ∧
    (∀ x, x ∈ (getArticlesRoute articles (some c) none).1 ↔
      x ∈ articles ∧ claimMatches c x) := by
  have hfil : (getArticlesRoute articles (some c) none).1 =
      articles.filter (articleMatchesCategory (jsToLower c)) := by
    simp only [getArticlesRoute, applyCategoryFilter, applyExcludeFilter]
    rw [if_neg h]
  refine ⟨rfl, ?_, ?_⟩
  · rw [hfil]
    exact List.filter_sublist articles
  · intro x
    rw [hfil]
    simp only [List.mem_filter]
    constructor
    · rintro ⟨hmem, hmatch⟩
      refine ⟨hmem, ?_⟩
      rw [articleMatchesCategory] at hmatch
      rw [claimMatches]
      cases hcat : x.category with
      | arr l =>
        rw [hcat] at hmatch
        simp only [List.any_eq_true, beq_iff_eq] at hmatch
        simpa using hmatch
      | str s =>
        rw [hcat] at hmatch
        simpa using hmatch
      | null =>
        rw [hcat] at hmatch
        cases hmatch
    · rintro ⟨hmem, hmatch⟩
      refine ⟨hmem, ?_⟩
      rw [claimMatches] at hmatch
      rw [articleMatchesCategory]
      cases hcat : x.category with
      | arr l =>
        rw [hcat] at hmatch
        simp only [List.any_eq_true, beq_iff_eq]
        simpa using hmatch
      | str s =>
        rw [hcat] at hmatch
        simpa using hmatch
      | null =>
        rw [hcat] at hmatch
        cases hmatch

/-- Witness for C7 at a concrete store. -/
theorem category_filter_exact_witness :
    (getArticlesRoute
      [⟨1, "s", "t", "c", .arr ["News", "Tech"], ""⟩,
       ⟨2, "s2", "t2", "c2", .str "Sports", ""⟩]
      (some "news") none).1 =
      [⟨1, "s", "t", "c", .arr ["News", "Tech"], ""⟩] := by
  have h := category_filter_exact
    [⟨1, "s", "t", "c", .arr ["News", "Tech"], ""⟩,
     ⟨2, "s2", "t2", "c2", .str "Sports", ""⟩]
    "news" (by decide)
  have hx := h.2.2
  have hsub := h.2.1
  cases hres : (getArticlesRoute
      [⟨1, "s", "t", "c", .arr ["News", "Tech"], ""⟩,
       ⟨2, "s2", "t2", "c2", .str "Sports", ""⟩]
      (some "news") none).1 with
  | nil =>
    exfalso
    have := (hx ⟨1, "s", "t", "c", .arr ["News", "Tech"], ""⟩).mpr
      ⟨by simp, ⟨"News", by simp, by decide⟩⟩
    rw [hres] at this
    cases this
  | cons y ys =>
    rw [hres] at hsub hx
    have hy := (hx y).mp (List.mem_cons_self y ys)
    have hy1 : y = ⟨1, "s", "t", "c", .arr ["News", "Tech"], ""⟩ := by
      rcases List.mem_cons.mp hy.1 with h1 | h1
      · exact h1
      · exfalso
        have h2 := hy.2
        rw [List.mem_singleton.mp h1] at h2
        rw [claimMatches] at h2
        revert h2
        decide
    subst hy1
    have hsub2 : List.Sublist ys [⟨2, "s2", "t2", "c2", .str "Sports", ""⟩] := by
      have hns : ¬ (⟨1, "s", "t", "c", .arr ["News", "Tech"], ""⟩ : Article) ∈
          [(⟨2, "s2", "t2", "c2", .str "Sports", ""⟩ : Article)] := by decide
      cases hsub with
      | cons _ htail =>
        exact absurd (htail.subset (List.mem_cons_self _ _)) hns
      | cons₂ _ htail => exact htail
    congr
    cases ys with
    | nil => rfl
    | cons z zs =>
      exfalso
      have hz := (hx z).mp (by simp)
      have hzmem : z ∈ [(⟨2, "s2", "t2", "c2", .str "Sports", ""⟩ : Article)] :=
        hsub2.subset (List.mem_cons_self z zs)
      have h2 := hz.2
      rw [List.mem_singleton.mp hzmem] at h2
      rw [claimMatches] at h2
      revert h2
      decide

/-! ## Claim C4 — the slug loop is a minimal-counter scan -/

/-- C4: the slug assigned by `POST /articles` equals `slugify(title)`
when no stored article carries it, and otherwise
`slugify(title) + "-" + n` for the smallest positive integer `n`
(counting up from 1) whose suffixed candidate no stored article
carries. -/
theorem slug_counter_minimal (articles : List Article) (now : Int)
    (t content imageUrl : String) (catIn : CatIn) (ht : t ≠ "") :
    ∃ art : Article,
      postArticleRoute articles now (.str t) content catIn imageUrl =
        (201, art :: articles) ∧
      (slugify t ∉ articles.map (·.slug) → art.slug = slugify t) ∧
      (slugify t ∈ articles.map (·.slug) →
        ∃ n, 1 ≤ n ∧ art.slug = slugify t ++ "-" ++ natRepr n ∧
          (slugify t ++ "-" ++ natRepr n) ∉ articles.map (·.slug) ∧
          ∀ m, 1 ≤ m → m < n →
            (slugify t ++ "-" ++ natRepr m) ∈ articles.map (·.slug)) := by
  refine ⟨⟨now, assignSlug (articles.map (·.slug)) (slugify t), t, content,
    normalizeCategory catIn, imageUrl⟩, ?_, ?_, ?_⟩
  · simp only [postArticleRoute]
    rw [if_neg ht]
  · intro hfree
    obtain ⟨m, h1, h2, h3⟩ := assignSlug_spec (articles.map (·.slug)) (slugify t)
    cases m with
    | zero => simpa [slugCandidate] using h1
    | succ k =>
      exfalso
      have h0 := h3 0 (by omega)
      rw [contains_true_iff] at h0
      exact hfree (by simpa [slugCandidate] using h0)
  · intro htaken
    obtain ⟨m, h1, h2, h3⟩ := assignSlug_spec (articles.map (·.slug)) (slugify t)
    cases m with
    | zero =>
      exfalso
      rw [contains_false_iff] at h2
      exact h2 (by simpa [slugCandidate] using htaken)
    | succ k =>
      refine ⟨k + 1, by omega, by simpa [slugCandidate] using h1, ?_, ?_⟩
      · rw [contains_false_iff] at h2
        simpa [slugCandidate] using h2
      · intro m hm1 hm2
        have hcm := h3 m hm2
        rw [contains_true_iff] at hcm
        cases m with
        | zero => omega
        | succ j => simpa [slugCandidate] using hcm

/-- Witness for C4 at a concrete store: with `"hello"` taken, the
title `"Hello"` gets the slug `"hello-1"`. -/
theorem slug_counter_minimal_witness :
    (("Hello" : String) ≠ "") ∧
    ∃ art : Article,
      postArticleRoute [⟨1, "hello", "T", "C", .null, ""⟩] 7 (.str "Hello")
          "c" .otherIn "" =
        (201, art :: [⟨1, "hello", "T", "C", .null, ""⟩]) ∧
      art.slug = "hello-1" := by
  refine ⟨by decide, ?_⟩
  obtain ⟨art, h1, _, htaken⟩ := slug_counter_minimal
    [⟨1, "hello", "T", "C", .null, ""⟩] 7 "Hello" "c" "" .otherIn (by decide)
  obtain ⟨n, hn1, hn2, hn3, hn4⟩ := htaken (by decide)
  refine ⟨art, h1, ?_⟩
  have hn : n = 1 := by
    by_contra hne
    have h11 := hn4 1 (by omega) (by omega)
    revert h11
    decide
  rw [hn] at hn2
  rw [hn2]
  decide

/-! ## Claim C1 — slug uniqueness is preserved -/

/-- In-place first-match update preserves pairwise-distinct slugs when
the updater either keeps an article's slug or replaces it by a string
`s₀` that no article with a different id carries. -/
theorem updateFirst_slug_nodup
    (full : List Article) (tid : Int) (s₀ : String) (upd : Article → Article)
    (hupd : ∀ a, (upd a).slug = a.slug ∨ (upd a).slug = s₀)
    (hfree : s₀ ∉ (full.filter (fun a => a.id ≠ tid)).map (·.slug)) :
    ∀ l : List Article, l ⊆ full →
      (l.map (·.id)).Nodup → (l.map (·.slug)).Nodup →
      ∀ r, updateFirst (fun a => a.id == tid) upd l = some r →
        (r.map (·.slug)).Nodup ∧
        (∀ s ∈ r.map (·.slug), s ∈ l.map (·.slug) ∨ s = s₀) := by
  intro l
  induction l with
  | nil =>
    intro _ _ _ r hr
    exact Option.noConfusion hr
  | cons a rest ih =>
    intro hsub hid hsl r hr
    rw [updateFirst] at hr
    by_cases hpa : (a.id == tid) = true
    · rw [if_pos hpa] at hr
      have hre : r = upd a :: rest := by
        injection hr with h
        exact h.symm
      subst hre
      have haid : a.id = tid := by simpa using hpa
      have hrestid : ∀ b ∈ rest, b.id ≠ tid := by
        intro b hb hbid
        have hmem : a.id ∈ rest.map (·.id) := by
          rw [haid, ← hbid]
          exact List.mem_map_of_mem _ hb
        exact (List.nodup_cons.mp (by simpa using hid)).1 hmem
      constructor
      · rw [List.map_cons]
        refine List.Nodup.cons ?_ (List.nodup_cons.mp (by simpa using hsl)).2
        intro hmem
        rcases hupd a with hcase | hcase
        · rw [hcase] at hmem
          exact (List.nodup_cons.mp (by simpa using hsl)).1 hmem
        · rw [hcase] at hmem
          rcases List.mem_map.mp hmem with ⟨b, hb, hbslug⟩
          apply hfree
          rw [← hbslug]
          exact List.mem_map_of_mem _
            (List.mem_filter.mpr ⟨hsub (List.mem_cons_of_mem a hb),
              by simpa using hrestid b hb⟩)
      · intro s hs
        rw [List.map_cons] at hs
        rcases List.mem_cons.mp hs with rfl | hs'
        · rcases hupd a with hcase | hcase
          · rw [hcase]
            left
            simp
          · right
            exact hcase
        · left
          rw [List.map_cons]
          exact List.mem_cons_of_mem _ hs'
    · rw [if_neg hpa] at hr
      cases hrec : updateFirst (fun a => a.id == tid) upd rest with
      | none =>
        rw [hrec] at hr
        exact Option.noConfusion hr
      | some r' =>
        rw [hrec] at hr
        have hre : r = a :: r' := by
          have hsome : some (a :: r') = some r := hr
          injection hsome with h
          exact h.symm
        subst hre
        obtain ⟨hnd', horig⟩ := ih (fun x hx => hsub (List.mem_cons_of_mem a hx))
          (List.nodup_cons.mp (by simpa using hid)).2
          (List.nodup_cons.mp (by simpa using hsl)).2 r' hrec
        have hane : a.id ≠ tid := by simpa using hpa
        have hamem : a.slug ∈ (full.filter (fun x => x.id ≠ tid)).map (·.slug) :=
          List.mem_map_of_mem _
            (List.mem_filter.mpr ⟨hsub (List.mem_cons_self a rest), by simpa using hane⟩)
        have haneq : a.slug ≠ s₀ := fun h => hfree (h ▸ hamem)
        constructor
        · rw [List.map_cons]
          refine List.Nodup.cons ?_ hnd'
          intro hmem
          rcases horig _ hmem with h | h
          · exact (List.nodup_cons.mp (by simpa using hsl)).1 h
          · exact haneq h
        · intro s hs
          rw [List.map_cons] at hs
          rcases List.mem_cons.mp hs with rfl | hs'
          · left
            simp
          · rcases horig s hs' with h | h
            · left
              rw [List.map_cons]
              exact List.mem_cons_of_mem _ h
            · right
              exact h

/-- The title string carried by a `StrField`, used to name the slug
base of a PUT request. -/
def titleOf : StrField → String
  | .str t => t
  | _ => ""

/-- The updater of `PUT /articles/:id` either keeps the slug or
assigns the freshly computed collision-free one. -/
theorem putUpdate_slug_cases (articles : List Article) (id : Int)
    (pt pc : StrField) (cat : CategoryVal) (a : Article) :
    (putUpdate articles id pt pc cat a).slug = a.slug ∨
    (putUpdate articles id pt pc cat a).slug =
      assignSlug ((articles.filter (fun x => x.id ≠ id)).map (·.slug))
        (slugify (titleOf pt)) := by
  cases pt with
  | str t =>
    by_cases hcond : t ≠ "" ∧ t ≠ a.title
    · right
      simp [putUpdate, hcond, titleOf]
    · by_cases h2 : t ≠ ""
      · left
        have hta : t = a.title := by
          by_contra hne
          exact hcond ⟨h2, hne⟩
        simp [putUpdate, hcond, h2, hta]
      · left
        simp [putUpdate, hcond, h2]
  | absent => left; simp [putUpdate]
  | nonstr => left; simp [putUpdate]

/-- C1: a valid `POST /articles` assigns a slug distinct from every
stored slug, so the store keeps pairwise-distinct slugs, and
`PUT /articles/:id` preserves pairwise-distinct slugs as well,
re-running the collision scan (excluding the article's own id) when
the title changes. -/
theorem slug_uniqueness (articles : List Article)
    (hslugs : (articles.map (·.slug)).Nodup)
    (hids : (articles.map (·.id)).Nodup)
    (now : Int) (t content imageUrl : String) (catIn : CatIn) (ht : t ≠ "")
    (id? : Option Int) (pt pc : StrField) (pcat : CatIn) :
    (∃ art, postArticleRoute articles now (.str t) content catIn imageUrl =
        (201, art :: articles) ∧
      art.slug ∉ articles.map (·.slug) ∧
      ((art :: articles).map (·.slug)).Nodup) ∧
    ((putArticleRoute articles id? pt pc pcat).2.map (·.slug)).Nodup := by
  constructor
  · refine ⟨⟨now, assignSlug (articles.map (·.slug)) (slugify t), t, content,
      normalizeCategory catIn, imageUrl⟩, ?_, ?_, ?_⟩
    · simp only [postArticleRoute]
      rw [if_neg ht]
    · exact assignSlug_not_mem _ _
    · rw [List.map_cons]
      exact List.Nodup.cons (assignSlug_not_mem _ _) hslugs
  · cases id? with
    | none => exact hslugs
    | some id =>
      simp only [putArticleRoute]
      by_cases hany : ¬ articles.any (fun a => a.id == id)
      · rw [if_pos hany]
        exact hslugs
      · rw [if_neg hany]
        by_cases hpt : pt = StrField.nonstr
        · rw [if_pos hpt]
          exact hslugs
        · rw [if_neg hpt]
          by_cases hpc : pc = StrField.nonstr
          · rw [if_pos hpc]
            exact hslugs
          · rw [if_neg hpc]
            cases hup : updateFirst (fun a => a.id == id)
                (putUpdate articles id pt pc (normalizeCategory pcat)) articles with
            | none => exact hslugs
            | some updated =>
              have := updateFirst_slug_nodup articles id
                (assignSlug ((articles.filter (fun x => x.id ≠ id)).map (·.slug))
                  (slugify (titleOf pt)))
                (putUpdate articles id pt pc (normalizeCategory pcat))
                (putUpdate_slug_cases articles id pt pc (normalizeCategory pcat))
                (assignSlug_not_mem _ _)
                articles (fun x hx => hx) hids hslugs updated hup
              exact this.1

/-- Witness for C1 at a concrete store. -/
theorem slug_uniqueness_witness :
    (([⟨1, "hello", "T", "C", .null, ""⟩] : List Article).map (·.slug)).Nodup ∧
    (([⟨1, "hello", "T", "C", .null, ""⟩] : List Article).map (·.id)).Nodup ∧
    (∃ art, postArticleRoute [⟨1, "hello", "T", "C", .null, ""⟩] 7 (.str "Hello")
        "c" .otherIn "" = (201, art :: [⟨1, "hello", "T", "C", .null, ""⟩]) ∧
      art.slug ∉ ([⟨1, "hello", "T", "C", .null, ""⟩] : List Article).map (·.slug) ∧
      ((art :: [⟨1, "hello", "T", "C", .null, ""⟩]).map (·.slug)).Nodup) ∧
    ((putArticleRoute [⟨1, "hello", "T", "C", .null, ""⟩] (some 1) (.str "Hello")
        .absent .otherIn).2.map (·.slug)).Nodup := by
  have h := slug_uniqueness [⟨1, "hello", "T", "C", .null, ""⟩]
    (by decide) (by decide) 7 "Hello" "c" "" .otherIn (by decide)
    (some 1) (.str "Hello") .absent .otherIn
  exact ⟨by decide, by decide, h.1, h.2⟩

/-! ## Claim C8 — articles are kept newest-first -/

theorem createIds_cons_create (now : Int) (pt : StrField) (c : String)
    (ci : CatIn) (iu : String) (rest : List Op) :
    createIds (.create now pt c ci iu :: rest) = now :: createIds rest := by
  simp [createIds, List.filterMap_cons]

theorem createIds_cons_del (id : Int) (rest : List Op) :
    createIds (.del id :: rest) = createIds rest := by
  simp [createIds, List.filterMap_cons]

/-- Invariant propagation: with strictly increasing creation
timestamps and a state sorted by strictly descending id whose ids all
precede the future timestamps, running any operation sequence keeps
the state sorted by strictly descending id. -/
theorem runOps_sorted_aux : ∀ (ops : List Op) (s : List Article),
    List.Pairwise (· < ·) (createIds ops) →
    List.Pairwise (fun a b => b.id < a.id) s →
    (∀ a ∈ s, ∀ c ∈ createIds ops, a.id < c) →
    List.Pairwise (fun a b => b.id < a.id) (runOps ops s) := by
  intro ops
  induction ops with
  | nil =>
    intro s _ hs _
    exact hs
  | cons op rest ih =>
    intro s hmono hs hbound
    cases op with
    | del id =>
      rw [runOps]
      rw [createIds_cons_del] at hmono hbound
      have hsub : List.Sublist (deleteArticleRoute s id).2 s := by
        rw [deleteArticleRoute]
        split
        · exact List.Sublist.refl s
        · exact List.filter_sublist s
      exact ih _ hmono (hs.sublist hsub)
        (fun a ha c hc => hbound a (hsub.subset ha) c hc)
    | create now pt c ci iu =>
      rw [runOps]
      rw [createIds_cons_create] at hmono hbound
      have hmrest := (List.pairwise_cons.mp hmono).2
      have hnowlt := (List.pairwise_cons.mp hmono).1
      cases pt with
      | str t =>
        by_cases h0 : t = ""
        · have hstate : (postArticleRoute s now (.str t) c ci iu).2 = s := by
            simp only [postArticleRoute]
            rw [if_pos h0]
          rw [hstate]
          exact ih _ hmrest hs
            (fun a ha cc hc => hbound a ha cc (List.mem_cons_of_mem now hc))
        · have hstate : (postArticleRoute s now (.str t) c ci iu).2 =
              ⟨now, assignSlug (s.map (·.slug)) (slugify t), t, c,
                normalizeCategory ci, iu⟩ :: s := by
            simp only [postArticleRoute]
            rw [if_neg h0]
          rw [hstate]
          apply ih _ hmrest
          · rw [List.pairwise_cons]
            exact ⟨fun b hb => hbound b hb now (List.mem_cons_self now _), hs⟩
          · intro a ha cc hc
            rcases List.mem_cons.mp ha with rfl | ha'
            · exact hnowlt cc hc
            · exact hbound a ha' cc (List.mem_cons_of_mem now hc)
      | absent =>
        have hstate : (postArticleRoute s now .absent c ci iu).2 = s := rfl
        rw [hstate]
        exact ih _ hmrest hs
          (fun a ha cc hc => hbound a ha cc (List.mem_cons_of_mem now hc))
      | nonstr =>
        have hstate : (postArticleRoute s now .nonstr c ci iu).2 = s := rfl
        rw [hstate]
        exact ih _ hmrest hs
          (fun a ha cc hc => hbound a ha cc (List.mem_cons_of_mem now hc))

/-- C8: with creation timestamps strictly increasing along the
sequence, the store is always sorted by strictly descending id
(newest first): every successful `POST` prepends its article, and
`DELETE` keeps the relative order of the remaining articles. -/
theorem newest_first (ops : List Op)
    (hmono : List.Pairwise (· < ·) (createIds ops))
    (articles : List Article) (id now : Int) (t content imageUrl : String)
    (catIn : CatIn) (ht : t ≠ "") :
    List.Pairwise (fun a b => b.id < a.id) (runOps ops []) ∧
    List.Sublist (deleteArticleRoute articles id).2 articles ∧
    (∃ art, postArticleRoute articles now (.str t) content catIn imageUrl =
        (201, art :: articles) ∧ art.id = now) := by
  refine ⟨runOps_sorted_aux ops [] hmono (by simp) (by simp), ?_, ?_⟩
  · rw [deleteArticleRoute]
    split
    · exact List.Sublist.refl articles
    · exact List.filter_sublist articles
  · refine ⟨⟨now, assignSlug (articles.map (·.slug)) (slugify t), t, content,
      normalizeCategory catIn, imageUrl⟩, ?_, rfl⟩
    simp only [postArticleRoute]
    rw [if_neg ht]

/-- Witness for C8 at a concrete operation sequence. -/
theorem newest_first_witness :
    List.Pairwise (· < ·)
      (createIds [.create 1 (.str "A") "" .otherIn "", .del 5,
                  .create 2 (.str "B") "" .otherIn ""]) ∧
    List.Pairwise (fun a b => b.id < a.id)
      (runOps [.create 1 (.str "A") "" .otherIn "", .del 5,
               .create 2 (.str "B") "" .otherIn ""] []) := by
  have h := newest_first
    [.create 1 (.str "A") "" .otherIn "", .del 5, .create 2 (.str "B") "" .otherIn ""]
    (by decide) [] 0 0 "T" "" "" .otherIn (by decide)
  exact ⟨by decide, h.1⟩

end Komnottra
